import Mathlib

set_option maxHeartbeats 1000000

namespace QAMemnet

/-- Feature vectors of the network, modelled as lists of real numbers (one entry
per feature dimension).  Floating-point tensor entries are modelled over ℝ. -/
abbrev Vec := List ℝ

/-- A sequence tensor of shape (timesteps, features): a list of timesteps, each a
feature vector.  The batch axis is dropped: all operations in the source act
independently per batch element. -/
abbrev Seq := List Vec

/-- Dot product of two feature vectors (the source only applies it to
equal-shape tensors; `zipWith` truncates to the common length). -/
def dotp (x y : Vec) : ℝ := (List.zipWith (fun a b => a * b) x y).sum

/-- Euclidean norm of a feature vector, `sqrt(sum(square(x)))`. -/
noncomputable def l2norm (x : Vec) : ℝ := Real.sqrt (dotp x x)

/-- Embeds `K.l2_normalize(x, axis=-1)`: divides every entry by the Euclidean
norm.  The framework's tiny numerical epsilon guard inside the square root is
dropped in this real-number model; on the zero vector both versions return the
zero vector (here because division by zero is zero in ℝ). -/
noncomputable def l2_normalize (x : Vec) : Vec := x.map (fun v => v / l2norm x)

/-- Embeds `QAMemnet.cosine_similarity` (qa_memnet.py lines 83-87):
l2-normalize both inputs, multiply elementwise and sum over the last axis. -/
noncomputable def cosine_similarity (x y : Vec) : ℝ :=
  dotp (l2_normalize x) (l2_normalize y)

/-- A vector is nonzero when some entry is nonzero. -/
def vecNonzero (v : Vec) : Prop := ∃ r ∈ v, r ≠ 0

/-- Pointwise rescaling of a vector by a scalar. -/
def smul (a : ℝ) (x : Vec) : Vec := x.map (fun v => a * v)

/-- The margin of the contrastive loss (qa_memnet.py line 93: `margin = 1`). -/
noncomputable def contrastive_margin : ℝ := 1

/-- Per-example term of `QAMemnet.contrastive_loss` (qa_memnet.py line 94):
`(1 - y_true) * square(y_pred) + y_true * square(maximum(margin - y_pred, 0))`. -/
noncomputable def contrastive_term (y p : ℝ) : ℝ :=
  (1 - y) * p ^ 2 + y * max (contrastive_margin - p) 0 ^ 2

/-- Embeds `QAMemnet.contrastive_loss` (qa_memnet.py lines 89-94): `K.mean` of
the elementwise terms, i.e. their sum divided by the element count. -/
noncomputable def contrastive_loss (y_true y_pred : List ℝ) : ℝ :=
  (List.zipWith contrastive_term y_true y_pred).sum /
    ((List.zipWith contrastive_term y_true y_pred).length : ℝ)

/-- Embeds `QAMemnet.last_timestep` (qa_memnet.py lines 76-77): `vests[:, -1, :]`. -/
def last_timestep (s : Seq) : Vec := (s.getLast?).getD []

/-- The first timestep `vests[:, 0, :]`, as sliced in `last_timestep_rev`. -/
def first_timestep (s : Seq) : Vec := s.headD []

/-- Embeds `QAMemnet.last_timestep_rev` (qa_memnet.py lines 79-81):
`rdim = int(shape[-1] / 2)` (the static feature dimension halved, modelled from
the first row as all rows of a tensor share it), then the first `rdim` features
of the last timestep concatenated with the features from `rdim` on of the first
timestep. -/
def last_timestep_rev (s : Seq) : Vec :=
  (last_timestep s).take ((first_timestep s).length / 2) ++
    (first_timestep s).drop ((first_timestep s).length / 2)

/-- The last-step extractor chosen inside the layer loop of `build_rnn_encoder`
(qa_memnet.py lines 141-150): `last_timestep_rev` in the bidirectional branch,
`last_timestep` otherwise.  The choice only depends on the flag, identically in
every loop iteration, so it is modelled as a function of the flag (the model
assumes at least one recurrent layer, as in all configurations built here). -/
def get_last_step (bidirectional : Bool) (s : Seq) : Vec :=
  if bidirectional then last_timestep_rev s else last_timestep s

/-- Elementwise sum of two feature vectors. -/
def vadd (x y : Vec) : Vec := List.zipWith (fun a b => a + b) x y

/-- Elementwise maximum of two feature vectors. -/
def vmax (x y : Vec) : Vec := List.zipWith max x y

/-- Elementwise sum of all timesteps of a sequence. -/
def vsum : Seq → Vec
  | [] => []
  | v :: rest => rest.foldl vadd v

/-- Embeds the framework layer `GlobalAveragePooling1D` used at qa_memnet.py
line 154: the elementwise mean over the time axis. -/
noncomputable def mean_pool (s : Seq) : Vec :=
  (vsum s).map (fun t => t / (s.length : ℝ))

/-- Embeds the framework layer `GlobalMaxPooling1D` used at qa_memnet.py
line 155: the elementwise maximum over the time axis. -/
def max_pool (s : Seq) : Vec :=
  match s with
  | [] => []
  | v :: rest => rest.foldl vmax v

/-- Output of the encoder model: either a list of output vectors (one per output
tensor) or a full sequence (the `return_sequences` branch). -/
inductive TensorOut where
  | vecs : List Vec → TensorOut
  | seqOut : Seq → TensorOut

/-- Embeds `QAMemnet.build_rnn_encoder` (qa_memnet.py lines 124-166) applied to
an input sequence.  The stacked recurrent layers themselves (CuDNNLSTM / LSTM /
CuDNNGRU / GRU, external framework primitives) are abstracted as the
sequence-to-sequence map `rnn`; the encoder head logic of lines 152-163 is
embedded literally: with pooling and without `return_sequences` it returns the
concatenation of {last step, mean-pool, max-pool} followed by each of the
three; without pooling just the last step; otherwise the raw sequence. -/
noncomputable def build_rnn_encoder (rnn : Seq → Seq)
    (return_sequences bidirectional use_pool : Bool) (inp : Seq) : TensorOut :=
  let r := rnn inp
  if !return_sequences && use_pool then
    let last := get_last_step bidirectional r
    let mean := mean_pool r
    let maxp := max_pool r
    let sms := [last, mean, maxp]
    TensorOut.vecs (sms.flatten :: sms)
  else if !return_sequences then
    TensorOut.vecs [get_last_step bidirectional r]
  else
    TensorOut.seqOut r

/-- The rectified linear activation used by the dense layers. -/
def relu (v : ℝ) : ℝ := max v 0

/-- A fully connected layer with ReLU activation, `Dense(width, 'relu')`: one
output per weight row, `relu(w · x + b)`. -/
def dense_relu (W : List Vec) (b : Vec) (x : Vec) : Vec :=
  List.zipWith (fun w bi => relu (dotp w x + bi)) W b

/-- The logistic sigmoid used by the output layer. -/
noncomputable def sigmoid (v : ℝ) : ℝ := 1 / (1 + Real.exp (-v))

/-- A fully connected layer with sigmoid activation, `Dense(width, 'sigmoid')`. -/
noncomputable def dense_sigmoid (W : List Vec) (b : Vec) (x : Vec) : Vec :=
  List.zipWith (fun w bi => sigmoid (dotp w x + bi)) W b

/-- Inference-time parameters of a `BatchNormalization` layer. -/
structure BNParams where
  gamma : Vec
  beta : Vec
  mean : Vec
  var : Vec
  eps : ℝ

/-- Embeds the framework layer `BatchNormalization` at inference time:
per-feature `gamma * (x - mean) / sqrt(var + eps) + beta`. -/
noncomputable def batch_norm : Vec → Vec → Vec → Vec → ℝ → Vec → Vec
  | g :: gs, bt :: bts, mn :: mns, vr :: vrs, eps, x :: xs =>
      (g * ((x - mn) / Real.sqrt (vr + eps)) + bt) ::
        batch_norm gs bts mns vrs eps xs
  | _, _, _, _, _, _ => []

/-- Inference-time behaviour of the framework layer `Dropout`: the identity
(dropout is only active while training). -/
def dropout (x : Vec) : Vec := x

/-- Weights of one `Dense(dense_dim, 'relu')` layer of the merge head. -/
structure DenseParams where
  W : List Vec
  b : Vec

/-- Embeds `dense_comb` (qa_memnet.py lines 190-203), the shared merge head:
concatenate the two input vectors, batch-normalize, apply dropout, then fold
the given dense+ReLU layers (the source loops `for _ in range(layers)` over
`Dense(self.dense_dim, activation='relu')`; here `denses` carries the weights
of those layers in application order). -/
noncomputable def dense_comb (bn : BNParams) (denses : List DenseParams)
    (inp1 inp2 : Vec) : Vec :=
  let cnc1 := inp1 ++ inp2
  let bnr1 := batch_norm bn.gamma bn.beta bn.mean bn.var bn.eps cnc1
  let drp1 := dropout bnr1
  denses.foldl (fun acc d => dense_relu d.W d.b acc) drp1

/-- Weights of the network built by `get_qa_memnet_model` (qa_memnet.py lines
169-242) in its default configuration (`pool=True`, `dsn=False`): the shared
embedding lookup, the shared stacked recurrent encoder (abstracted as a
sequence-to-sequence map), the merge-head parameters, and the two dense layers
of the scoring head (`Dense(16, 'relu')` then `Dense(1, 'sigmoid')`). -/
structure QAModel where
  embed : ℕ → Vec
  rnn : Seq → Seq
  bdr : Bool
  bn : BNParams
  denses : List DenseParams
  fc1W : List Vec
  fc1b : Vec
  fc2w : Vec
  fc2b : ℝ

/-- The shared embedder (qa_memnet.py lines 96-122 with the default flags used
at line 182: no transform, no re-weighting): a per-token lookup applied to the
token sequence. -/
def embedSeq (m : QAModel) (toks : List ℕ) : Seq := toks.map m.embed

/-- The last-step sub-representation `c1`/`r1` produced by the shared encoder
(qa_memnet.py lines 152-158, unpacked at lines 211-212). -/
def encLast (m : QAModel) (s : List ℕ) : Vec :=
  get_last_step m.bdr (m.rnn (embedSeq m s))

/-- The mean-pool sub-representation `c2`/`r2`. -/
noncomputable def encMean (m : QAModel) (s : List ℕ) : Vec :=
  mean_pool (m.rnn (embedSeq m s))

/-- The max-pool sub-representation `c3`/`r3`. -/
def encMax (m : QAModel) (s : List ℕ) : Vec :=
  max_pool (m.rnn (embedSeq m s))

/-- The full concatenated representation `enc_ctx`/`enc_rpl`:
last-step ++ mean-pool ++ max-pool. -/
noncomputable def encFull (m : QAModel) (s : List ℕ) : Vec :=
  encLast m s ++ encMean m s ++ encMax m s

/-- The similarity list built at qa_memnet.py lines 214-223, before
conditioning: full-vs-full plus the nine sub-representation pairings. -/
noncomputable def sims_pre (m : QAModel) (ctx rpl : List ℕ) : List ℝ :=
  [cosine_similarity (encFull m ctx) (encFull m rpl),
   cosine_similarity (encLast m ctx) (encLast m rpl),
   cosine_similarity (encLast m ctx) (encMean m rpl),
   cosine_similarity (encLast m ctx) (encMax m rpl),
   cosine_similarity (encMean m ctx) (encLast m rpl),
   cosine_similarity (encMean m ctx) (encMean m rpl),
   cosine_similarity (encMean m ctx) (encMax m rpl),
   cosine_similarity (encMax m ctx) (encLast m rpl),
   cosine_similarity (encMax m ctx) (encMean m rpl),
   cosine_similarity (encMax m ctx) (encMax m rpl)]

/-- The full similarity list fed to the scoring head when `dsn` is false
(qa_memnet.py lines 226-234): the pre-conditioning list with one more
similarity appended, between the merge-head output
`dm([enc_ctx, enc_rpl])` and the reply representation. -/
noncomputable def sims_list (m : QAModel) (ctx rpl : List ℕ) : List ℝ :=
  sims_pre m ctx rpl ++
    [cosine_similarity
      (dense_comb m.bn m.denses (encFull m ctx) (encFull m rpl))
      (encFull m rpl)]

/-- The scoring head and full forward pass of the model returned by
`get_qa_memnet_model` (qa_memnet.py lines 234-239): concatenate the
similarities, apply `Dense(16, 'relu')`, then the single-unit
`Dense(1, 'sigmoid')` relevance output. -/
noncomputable def qa_memnet_forward (m : QAModel) (ctx rpl : List ℕ) : Vec :=
  dense_sigmoid [m.fc2w] [m.fc2b]
    (dense_relu m.fc1W m.fc1b (sims_list m ctx rpl))

/-- Modelled from the spec: the `SiameseNetwork` parent class and the
framework's `save_weights`/`load_weights` calls used by `load`/`save`
(qa_memnet.py lines 244-254) are not under `src/`; per the spec, `load` and
`save` only forward to framework-level weight persistence of the network whose
weights drive `train_on_batch`/`predict_score_on_batch`.  The state is the
network's current weights plus a path-indexed store of persisted weight sets. -/
structure PersistState where
  net : QAModel
  store : String → Option QAModel

/-- Modelled from the spec: `save(save_path)` persists the network's current
weights under the given path. -/
def save (st : PersistState) (save_path : String) : PersistState :=
  { st with store := fun q => if q = save_path then some st.net else st.store q }

/-- Modelled from the spec: `load(load_path)` restores the weights persisted
under the given path into the network (unchanged if nothing was saved there). -/
def load (st : PersistState) (load_path : String) : PersistState :=
  match st.store load_path with
  | some w => { st with net := w }
  | none => st

/-- `predict_score_on_batch` (qa_memnet.py lines 260-261): run the compiled
network forward on every (context, reply) pair of the batch. -/
noncomputable def predict_score_on_batch (st : PersistState)
    (batch : List (List ℕ × List ℕ)) : List Vec :=
  batch.map (fun cr => qa_memnet_forward st.net cr.1 cr.2)

/-- A concrete weight assignment used to instantiate the theorems below on
explicit inputs: every token embeds to the vector `[1]`, the recurrent stack is
the identity map, the encoder is unidirectional, the merge head has no dense
layers, and the scoring head holds the shapes built by the source
(16 ReLU units, one sigmoid unit). -/
noncomputable def cM : QAModel where
  embed := fun _ => [1]
  rnn := id
  bdr := false
  bn := ⟨[], [], [], [], 0⟩
  denses := []
  fc1W := List.replicate 16 []
  fc1b := List.replicate 16 0
  fc2w := []
  fc2b := 0

/-- Concrete batch-normalization parameters for instantiations. -/
noncomputable def cBN : BNParams := ⟨[1, 1], [0, 0], [0, 0], [1, 1], 0⟩

/-- Concrete merge-head dense-layer weights for instantiations. -/
noncomputable def cDense : DenseParams := ⟨[[1, 1]], [0]⟩

@[simp]
theorem dotp_nil_left (y : Vec) : dotp [] y = 0 := rfl

@[simp]
theorem dotp_nil_right (x : Vec) : dotp x [] = 0 := by
  simp [dotp]

@[simp]
theorem dotp_cons (a b : ℝ) (x y : Vec) :
    dotp (a :: x) (b :: y) = a * b + dotp x y := by
  simp [dotp]

theorem dotp_div_div (x y : Vec) (s t : ℝ) :
    dotp (x.map fun v => v / s) (y.map fun v => v / t) = dotp x y / (s * t) := by
  induction x generalizing y with
  | nil => simp
  | cons a xs ih =>
    cases y with
    | nil => simp
    | cons b ys =>
      simp only [List.map_cons, dotp_cons, ih]
      rw [div_mul_div_comm, div_add_div_same]

theorem dotp_smul_smul (a b : ℝ) (x y : Vec) :
    dotp (smul a x) (smul b y) = a * b * dotp x y := by
  unfold smul
  induction x generalizing y with
  | nil => simp
  | cons c xs ih =>
    cases y with
    | nil => simp
    | cons d ys =>
      simp only [List.map_cons, dotp_cons, ih]
      ring

theorem dotp_self_nonneg (x : Vec) : 0 ≤ dotp x x := by
  induction x with
  | nil => simp
  | cons a xs ih => simp only [dotp_cons]; nlinarith [mul_self_nonneg a]

theorem dotp_self_pos (x : Vec) (hx : vecNonzero x) : 0 < dotp x x := by
  induction x with
  | nil => obtain ⟨r, hr, _⟩ := hx; simp at hr
  | cons a xs ih =>
    obtain ⟨r, hr, hne⟩ := hx
    rw [dotp_cons]
    rcases List.mem_cons.mp hr with rfl | hmem
    · nlinarith [mul_self_pos.mpr hne, dotp_self_nonneg xs]
    · nlinarith [ih ⟨r, hmem, hne⟩, mul_self_nonneg a]

theorem dotp_neg_right (x y : Vec) :
    dotp x (y.map fun v => -v) = -dotp x y := by
  induction x generalizing y with
  | nil => simp
  | cons a xs ih =>
    cases y with
    | nil => simp
    | cons b ys =>
      simp only [List.map_cons, dotp_cons, ih]
      ring

theorem dotp_neg_left (x y : Vec) :
    dotp (x.map fun v => -v) y = -dotp x y := by
  induction x generalizing y with
  | nil => simp
  | cons a xs ih =>
    cases y with
    | nil => simp
    | cons b ys =>
      simp only [List.map_cons, dotp_cons, ih]
      ring

theorem dotp_le_half (x y : Vec) :
    dotp x y ≤ (dotp x x + dotp y y) / 2 := by
  induction x generalizing y with
  | nil =>
    simp only [dotp_nil_left]
    nlinarith [dotp_self_nonneg y]
  | cons a xs ih =>
    cases y with
    | nil =>
      simp only [dotp_nil_right]
      nlinarith [dotp_self_nonneg (a :: xs)]
    | cons b ys =>
      simp only [dotp_cons]
      nlinarith [ih ys, sq_nonneg (a - b)]

theorem cosine_eq_dotp_div (x y : Vec) :
    cosine_similarity x y = dotp x y / (l2norm x * l2norm y) := by
  unfold cosine_similarity l2_normalize
  exact dotp_div_div x y (l2norm x) (l2norm y)

theorem normalized_self_le_one (x : Vec) :
    dotp (l2_normalize x) (l2_normalize x) ≤ 1 := by
  unfold l2_normalize
  rw [dotp_div_div]
  by_cases h : dotp x x = 0
  · rw [h, zero_div]; norm_num
  · rw [show l2norm x * l2norm x = dotp x x from
      Real.mul_self_sqrt (dotp_self_nonneg x), div_self h]

theorem cosine_self_eq_one (x : Vec) (hx : vecNonzero x) :
    cosine_similarity x x = 1 := by
  rw [cosine_eq_dotp_div,
    show l2norm x * l2norm x = dotp x x from
      Real.mul_self_sqrt (dotp_self_nonneg x)]
  exact div_self (ne_of_gt (dotp_self_pos x hx))

theorem cosine_bounds (x y : Vec) :
    -1 ≤ cosine_similarity x y ∧ cosine_similarity x y ≤ 1 := by
  have hx := normalized_self_le_one x
  have hy := normalized_self_le_one y
  constructor
  · have h := dotp_le_half (l2_normalize x) ((l2_normalize y).map fun v => -v)
    rw [dotp_neg_right, dotp_neg_left, dotp_neg_right, neg_neg] at h
    have : -cosine_similarity x y ≤ (dotp (l2_normalize x) (l2_normalize x) +
        dotp (l2_normalize y) (l2_normalize y)) / 2 := h
    unfold cosine_similarity at *
    linarith
  · have h := dotp_le_half (l2_normalize x) (l2_normalize y)
    unfold cosine_similarity
    linarith

theorem l2norm_smul (a : ℝ) (ha : 0 ≤ a) (x : Vec) :
    l2norm (smul a x) = a * l2norm x := by
  unfold l2norm
  rw [dotp_smul_smul, show a * a * dotp x x = a ^ 2 * dotp x x by ring,
    Real.sqrt_mul (sq_nonneg a), Real.sqrt_sq ha]

theorem l2_normalize_smul (x : Vec) (a : ℝ) (ha : 0 < a) :
    l2_normalize (smul a x) = l2_normalize x := by
  unfold l2_normalize
  rw [l2norm_smul a ha.le x]
  unfold smul
  rw [List.map_map]
  congr 1
  funext v
  simp only [Function.comp_apply]
  exact mul_div_mul_left v (l2norm x) (ne_of_gt ha)

theorem sigmoid_pos (v : ℝ) : 0 < sigmoid v := by
  unfold sigmoid
  positivity

theorem sigmoid_lt_one (v : ℝ) : sigmoid v < 1 := by
  unfold sigmoid
  have h : 0 < 1 + Real.exp (-v) := by positivity
  rw [div_lt_one h]
  have := Real.exp_pos (-v)
  linarith

theorem dense_relu_nonneg (W : List Vec) (b : Vec) (x : Vec) :
    ∀ r ∈ dense_relu W b x, 0 ≤ r := by
  induction W generalizing b with
  | nil => intro r hr; simp [dense_relu] at hr
  | cons w ws ih =>
    cases b with
    | nil => intro r hr; simp [dense_relu] at hr
    | cons bi bs =>
      intro r hr
      simp only [dense_relu, List.zipWith_cons_cons, List.mem_cons] at hr
      rcases hr with rfl | hmem
      · exact le_max_right _ 0
      · exact ih bs r hmem

theorem foldl_dense_nonneg (d : DenseParams) (ds : List DenseParams) (v : Vec) :
    ∀ r ∈ (d :: ds).foldl (fun acc dl => dense_relu dl.W dl.b acc) v, 0 ≤ r := by
  induction ds generalizing d v with
  | nil =>
    intro r hr
    simp only [List.foldl_cons, List.foldl_nil] at hr
    exact dense_relu_nonneg _ _ _ r hr
  | cons d2 ds2 ih =>
    intro r hr
    rw [List.foldl_cons] at hr
    exact ih d2 (dense_relu d.W d.b v) r hr

theorem dense_comb_nonneg (bn : BNParams) (d : DenseParams)
    (ds : List DenseParams) (x1 x2 : Vec) :
    ∀ r ∈ dense_comb bn (d :: ds) x1 x2, 0 ≤ r :=
  fun r hr => foldl_dense_nonneg d ds
    (dropout (batch_norm bn.gamma bn.beta bn.mean bn.var bn.eps (x1 ++ x2))) r hr

/-- C6: `cosine_similarity` computes the normalized dot product: on nonzero
vectors it returns the dot product divided by the product of the Euclidean
norms, and it is invariant under positive rescaling of either argument. -/
theorem cosine_similarity_normalized_dot (x y : Vec)
    (hx : vecNonzero x) (hy : vecNonzero y) :
    cosine_similarity x y = dotp x y / (l2norm x * l2norm y) ∧
    ∀ a b : ℝ, 0 < a → 0 < b →
      cosine_similarity (smul a x) (smul b y) = cosine_similarity x y := by
  refine ⟨cosine_eq_dotp_div x y, fun a b ha hb => ?_⟩
  unfold cosine_similarity
  rw [l2_normalize_smul x a ha, l2_normalize_smul y b hb]

/-- Witness for C6 at the concrete vectors `[1]`, `[1]` with scales 2 and 3. -/
theorem cosine_similarity_normalized_dot_witness :
    (cosine_similarity [(1 : ℝ)] [(1 : ℝ)] =
      dotp [(1 : ℝ)] [(1 : ℝ)] / (l2norm [(1 : ℝ)] * l2norm [(1 : ℝ)])) ∧
    cosine_similarity (smul 2 [(1 : ℝ)]) (smul 3 [(1 : ℝ)]) =
      cosine_similarity [(1 : ℝ)] [(1 : ℝ)] := by
  have hnz : vecNonzero [(1 : ℝ)] := ⟨1, by simp, one_ne_zero⟩
  exact ⟨(cosine_similarity_normalized_dot _ _ hnz hnz).1,
    (cosine_similarity_normalized_dot _ _ hnz hnz).2 2 3 (by norm_num) (by norm_num)⟩

/-- C9: for all input vectors, including zero vectors, `cosine_similarity`
lies in `[-1, 1]`; consequently every similarity scalar in the list fed to the
scoring head is bounded in `[-1, 1]`. -/
theorem cosine_similarity_bounded :
    (∀ x y : Vec, -1 ≤ cosine_similarity x y ∧ cosine_similarity x y ≤ 1) ∧
    ∀ (m : QAModel) (ctx rpl : List ℕ), ∀ r ∈ sims_list m ctx rpl,
      -1 ≤ r ∧ r ≤ 1 := by
  refine ⟨fun x y => cosine_bounds x y, fun m ctx rpl r hr => ?_⟩
  simp only [sims_list, sims_pre, List.mem_append, List.mem_cons,
    List.mem_singleton, List.not_mem_nil, or_false] at hr
  rcases hr with (rfl | rfl | rfl | rfl | rfl | rfl | rfl | rfl | rfl | rfl) | rfl <;>
    exact cosine_bounds _ _

/-- Witness for C9 on the first similarity of a concrete model and input. -/
theorem cosine_similarity_bounded_witness :
    -1 ≤ cosine_similarity (encFull cM [0]) (encFull cM [0]) ∧
      cosine_similarity (encFull cM [0]) (encFull cM [0]) ≤ 1 :=
  cosine_similarity_bounded.2 cM [0] [0] _ (by simp [sims_list, sims_pre])

/-- C2 counterexample: a non-matching (label 0) prediction whose score 1/2 lies
strictly below the margin 1 still contributes a nonzero loss of 1/4, so the
label-0 side is not zero once the score is below the margin (no margin term
applies on the label-0 side of the compiled loss). -/
theorem contrastive_loss_label0_counterexample :
    contrastive_loss [0] [(1 / 2 : ℝ)] = 1 / 4 ∧
    (1 / 2 : ℝ) < contrastive_margin ∧
    contrastive_loss [0] [(1 / 2 : ℝ)] ≠ 0 := by
  norm_num [contrastive_loss, contrastive_term, contrastive_margin]

/-- C2 (amended): the compiled loss averages per-example terms; a non-matching
(label 0) example contributes its squared score, zero exactly when the score is
zero, while the margin term applies to the matching (label 1) side: a matching
example contributes `max(margin - score, 0)^2`, strictly decreasing in the
score below the margin and zero at or above it. -/
theorem contrastive_loss_amended :
    (∀ y p : ℝ, contrastive_loss [y] [p] = contrastive_term y p) ∧
    (∀ p : ℝ, contrastive_term 0 p = p ^ 2 ∧
      (contrastive_term 0 p = 0 ↔ p = 0)) ∧
    (∀ p : ℝ, contrastive_term 1 p = max (contrastive_margin - p) 0 ^ 2) ∧
    (∀ p q : ℝ, p < q → q ≤ contrastive_margin →
      contrastive_term 1 q < contrastive_term 1 p) ∧
    (∀ p : ℝ, contrastive_margin ≤ p → contrastive_term 1 p = 0) := by
  have hterm0 : ∀ p : ℝ, contrastive_term 0 p = p ^ 2 := by
    intro p; simp [contrastive_term]
  have hterm1 : ∀ p : ℝ, contrastive_term 1 p = max (contrastive_margin - p) 0 ^ 2 := by
    intro p; simp [contrastive_term]
  refine ⟨?_, ?_, hterm1, ?_, ?_⟩
  · intro y p
    simp [contrastive_loss]
  · intro p
    refine ⟨hterm0 p, ?_⟩
    rw [hterm0 p]
    exact pow_eq_zero_iff two_ne_zero
  · intro p q hpq hq
    rw [hterm1 p, hterm1 q,
      max_eq_left (by simp only [contrastive_margin] at *; linarith),
      max_eq_left (by simp only [contrastive_margin] at *; linarith)]
    simp only [contrastive_margin] at *
    nlinarith
  · intro p hp
    rw [hterm1 p, max_eq_right (by linarith)]
    norm_num

/-- Witness for C2: strict decrease below the margin and vanishing at a score
past the margin, at concrete scores. -/
theorem contrastive_loss_amended_witness :
    contrastive_term 1 (3 / 4 : ℝ) < contrastive_term 1 (1 / 2 : ℝ) ∧
    contrastive_term 1 (2 : ℝ) = 0 :=
  ⟨contrastive_loss_amended.2.2.2.1 (1 / 2) (3 / 4) (by norm_num)
      (by norm_num [contrastive_margin]),
    contrastive_loss_amended.2.2.2.2 2 (by norm_num [contrastive_margin])⟩

/-- C4: with pooling enabled and `return_sequences` false, `build_rnn_encoder`
outputs exactly the four tensors [concatenation, last step, mean-pool,
max-pool], the first being the concatenation of the other three in that
order, for every recurrent stack, bidirectionality flag and input. -/
theorem build_rnn_encoder_pool_outputs (rnn : Seq → Seq) (b : Bool) (s : Seq) :
    build_rnn_encoder rnn false b true s =
      TensorOut.vecs
        [get_last_step b (rnn s) ++ mean_pool (rnn s) ++ max_pool (rnn s),
         get_last_step b (rnn s), mean_pool (rnn s), max_pool (rnn s)] := by
  simp [build_rnn_encoder]

/-- C10: on a nonempty sequence whose feature dimension is an even number 2d,
`last_timestep_rev` concatenates the first d features of the final timestep
with the last d features of the first timestep, and this extractor is the one
`build_rnn_encoder` selects whenever the encoder is bidirectional. -/
theorem last_timestep_rev_halves (s : Seq) (d : ℕ) (hne : s ≠ [])
    (hlen : ∀ v ∈ s, v.length = 2 * d) :
    last_timestep_rev s =
      (last_timestep s).take d ++ (first_timestep s).drop d ∧
    ∀ t : Seq, get_last_step true t = last_timestep_rev t := by
  refine ⟨?_, fun t => rfl⟩
  obtain ⟨v, rest, rfl⟩ : ∃ v rest, s = v :: rest := by
    cases s with
    | nil => exact absurd rfl hne
    | cons v rest => exact ⟨v, rest, rfl⟩
  have hv : v.length = 2 * d := hlen v (by simp)
  unfold last_timestep_rev first_timestep
  simp only [List.headD_cons, hv, Nat.mul_div_cancel_left d (by norm_num : 0 < 2)]

/-- Witness for C10 on the concrete one-timestep sequence `[[1, 2]]`. -/
theorem last_timestep_rev_halves_witness :
    (last_timestep_rev [[(1 : ℝ), 2]] =
      (last_timestep [[(1 : ℝ), 2]]).take 1 ++
        (first_timestep [[(1 : ℝ), 2]]).drop 1) ∧
    get_last_step true [[(1 : ℝ), 2]] = last_timestep_rev [[(1 : ℝ), 2]] := by
  have h := last_timestep_rev_halves [[(1 : ℝ), 2]] 1 (by simp)
    (by intro v hv; simp only [List.mem_singleton] at hv; subst hv; simp)
  exact ⟨h.1, h.2 [[(1 : ℝ), 2]]⟩

/-- C5: the embedder and encoder weights are shared between the context and the
reply branch, so equal token sequences produce equal sub-representations, and
each diagonal cosine similarity equals 1 whenever the corresponding
representation is nonzero. -/
theorem shared_encoder_diagonal (m : QAModel) (ctx rpl : List ℕ)
    (h : ctx = rpl) :
    (encFull m ctx = encFull m rpl ∧ encLast m ctx = encLast m rpl ∧
      encMean m ctx = encMean m rpl ∧ encMax m ctx = encMax m rpl) ∧
    (vecNonzero (encLast m ctx) →
      cosine_similarity (encLast m ctx) (encLast m rpl) = 1) ∧
    (vecNonzero (encMean m ctx) →
      cosine_similarity (encMean m ctx) (encMean m rpl) = 1) ∧
    (vecNonzero (encMax m ctx) →
      cosine_similarity (encMax m ctx) (encMax m rpl) = 1) ∧
    (vecNonzero (encFull m ctx) →
      cosine_similarity (encFull m ctx) (encFull m rpl) = 1) := by
  subst h
  exact ⟨⟨rfl, rfl, rfl, rfl⟩,
    fun hv => cosine_self_eq_one _ hv, fun hv => cosine_self_eq_one _ hv,
    fun hv => cosine_self_eq_one _ hv, fun hv => cosine_self_eq_one _ hv⟩

/-- Witness for C5: on the concrete model the diagonal last-step similarity of
the identical token sequence `[0]` is 1. -/
theorem shared_encoder_diagonal_witness :
    cosine_similarity (encLast cM [0]) (encLast cM [0]) = 1 := by
  have hnz : vecNonzero (encLast cM [0]) := by
    simp [vecNonzero, encLast, get_last_step, last_timestep, embedSeq, cM]
  exact (shared_encoder_diagonal cM [0] [0] rfl).2.1 hnz

/-- C3: the scoring head applies one 16-unit ReLU dense layer to the similarity
vector and then a single sigmoid unit, so the model outputs exactly one
relevance scalar per example, strictly between 0 and 1. -/
theorem scoring_head_output (m : QAModel) (ctx rpl : List ℕ)
    (h1 : m.fc1W.length = 16) (h2 : m.fc1b.length = 16) :
    (qa_memnet_forward m ctx rpl).length = 1 ∧
    0 < (qa_memnet_forward m ctx rpl).headD 0 ∧
    (qa_memnet_forward m ctx rpl).headD 0 < 1 := by
  have hfw : qa_memnet_forward m ctx rpl =
      [sigmoid (dotp m.fc2w
        (dense_relu m.fc1W m.fc1b (sims_list m ctx rpl)) + m.fc2b)] := rfl
  rw [hfw]
  exact ⟨rfl, sigmoid_pos _, sigmoid_lt_one _⟩

/-- Witness for C3 on the concrete model (whose first dense layer has the
source's 16 units) and the concrete input pair `([0], [0])`. -/
theorem scoring_head_output_witness :
    (qa_memnet_forward cM [0] [0]).length = 1 ∧
    0 < (qa_memnet_forward cM [0] [0]).headD 0 ∧
    (qa_memnet_forward cM [0] [0]).headD 0 < 1 :=
  scoring_head_output cM [0] [0] (by simp [cM]) (by simp [cM])

/-- C7: the merge head concatenates its two inputs, batch-normalizes, applies
dropout, then the `dlrs` dense+ReLU layers; with at least one dense layer every
coordinate of its output is nonnegative. -/
theorem dense_comb_output_nonneg (bn : BNParams) (denses : List DenseParams)
    (dlrs : ℕ) (hlen : denses.length = dlrs) (hpos : 1 ≤ dlrs)
    (x1 x2 : Vec) (i : ℕ) :
    0 ≤ (dense_comb bn denses x1 x2).getD i 0 := by
  cases denses with
  | nil => rw [← hlen] at hpos; simp at hpos
  | cons d ds =>
    by_cases hi : i < (dense_comb bn (d :: ds) x1 x2).length
    · rw [List.getD_eq_getElem (dense_comb bn (d :: ds) x1 x2) 0 hi]
      exact dense_comb_nonneg bn d ds x1 x2 _ (List.getElem_mem hi)
    · rw [List.getD_eq_default (dense_comb bn (d :: ds) x1 x2) 0
        (le_of_not_lt hi)]

/-- Witness for C7 with one concrete dense layer (`dlrs = 1`) and concrete
inputs. -/
theorem dense_comb_output_nonneg_witness :
    0 ≤ (dense_comb cBN [cDense] [(1 : ℝ)] [(1 : ℝ)]).getD 0 0 :=
  dense_comb_output_nonneg cBN [cDense] 1 rfl le_rfl [(1 : ℝ)] [(1 : ℝ)] 0

/-- C1 counterexample: on a concrete model and input pair the similarity vector
fed to the scoring head has eleven entries, not ten, in the `dsn = false`
branch: the full-vs-full similarity of line 214 is computed before conditioning
and kept in addition to the post-conditioning one appended at line 232. -/
theorem sims_list_eleven_counterexample :
    (sims_list cM [0] [0]).length = 11 ∧ (sims_list cM [0] [0]).length ≠ 10 := by
  constructor <;> simp [sims_list, sims_pre]

/-- C1 (amended): when `dsn` is false the vector fed to the scoring head
consists of exactly eleven cosine similarities: the full concatenated
representations before conditioning, the nine pairings of the three
pre-conditioning sub-representations, and an eleventh between the
reply-conditioned context representation (merge-head output) and the reply
representation; the scoring head consumes exactly this list. -/
theorem sims_list_eleven (m : QAModel) (ctx rpl : List ℕ) :
    (sims_list m ctx rpl).length = 11 ∧
    sims_list m ctx rpl =
      [cosine_similarity (encFull m ctx) (encFull m rpl),
       cosine_similarity (encLast m ctx) (encLast m rpl),
       cosine_similarity (encLast m ctx) (encMean m rpl),
       cosine_similarity (encLast m ctx) (encMax m rpl),
       cosine_similarity (encMean m ctx) (encLast m rpl),
       cosine_similarity (encMean m ctx) (encMean m rpl),
       cosine_similarity (encMean m ctx) (encMax m rpl),
       cosine_similarity (encMax m ctx) (encLast m rpl),
       cosine_similarity (encMax m ctx) (encMean m rpl),
       cosine_similarity (encMax m ctx) (encMax m rpl),
       cosine_similarity
         (dense_comb m.bn m.denses (encFull m ctx) (encFull m rpl))
         (encFull m rpl)] ∧
    qa_memnet_forward m ctx rpl =
      dense_sigmoid [m.fc2w] [m.fc2b]
        (dense_relu m.fc1W m.fc1b (sims_list m ctx rpl)) := by
  refine ⟨?_, ?_, rfl⟩ <;> simp [sims_list, sims_pre]

/-- C8 (spec-modelled): saving to a path and immediately loading from it leaves
the network weights intact, so `predict_score_on_batch` returns the same scores
on every batch as before the round trip. -/
theorem save_load_roundtrip (st : PersistState) (p : String)
    (batch : List (List ℕ × List ℕ)) :
    predict_score_on_batch (load (save st p) p) batch =
      predict_score_on_batch st batch := by
  simp [predict_score_on_batch, load, save]

end QAMemnet

